import Mathlib

/-!
Verification of the coherence-graph analysis pipeline of `grafo_coherencia.py`
(repository Meta_SIC).  The numeric entries are modelled over `ℚ`; the
uniform random draws of `numpy.random.Generator.random` are abstracted as an
arbitrary raw matrix whose entries lie in `[0, 1)`, and the normal draws of
`rng.normal` as arbitrary raw matrices.  A graph produced by
`networkx.from_numpy_array(W)` is represented by its weight matrix `W`
together with the edge predicate "the entry is nonzero".
-/

namespace SIC

/-- Square rational matrices indexed by `Fin n`, the model of the
`numpy` arrays manipulated by the scripts. -/
abbrev Mat (n : ℕ) := Fin n → Fin n → ℚ

/-- Entrywise model of `np.fill_diagonal(M, c)`: every diagonal entry is
replaced by `c`, off-diagonal entries are kept. -/
def fillDiagonal {n : ℕ} (M : Mat n) (c : ℚ) : Mat n :=
  fun i j => if i = j then c else M i j

/-- Entrywise model of `(M + M.T) / 2`. -/
def symmetrize {n : ℕ} (M : Mat n) : Mat n :=
  fun i j => (M i j + M j i) / 2

/-- Model of `create_coherence_matrix` (grafo_coherencia.py, lines 35-42): starting
from the raw uniform draw `R = rng.random((n, n))`, compute
`M = (M + M.T) / 2` and then `np.fill_diagonal(M, 1.0)`. -/
def create_coherence_matrix {n : ℕ} (R : Mat n) : Mat n :=
  fillDiagonal (symmetrize R) 1

/-- Model of `build_graph` (lines 49-55): `M_eff[M_eff < epsilon] = 0` followed by
`np.fill_diagonal(M_eff, 0)`; the returned value is the effective weight
matrix handed to `nx.from_numpy_array`. -/
def build_graph {n : ℕ} (M : Mat n) (ε : ℚ) : Mat n :=
  fillDiagonal (fun i j => if M i j < ε then 0 else M i j) 0

/-- Edge predicate of `nx.from_numpy_array(W)`: the undirected graph holds
the edge `{i, j}` exactly when one of the two corresponding entries of `W`
is nonzero (for `i = j` this is a self-loop). -/
def hasEdge {n : ℕ} (W : Mat n) (i j : Fin n) : Prop :=
  W i j ≠ 0 ∨ W j i ≠ 0

instance {n : ℕ} (W : Mat n) (i j : Fin n) : Decidable (hasEdge W i j) :=
  inferInstanceAs (Decidable (_ ∨ _))

lemma hasEdge_symm {n : ℕ} (W : Mat n) {i j : Fin n} (h : hasEdge W i j) :
    hasEdge W j i := h.symm

/-- The loop-free part of the `networkx` graph of `W`, as a Mathlib
`SimpleGraph`; connected components (and hence cluster counts) of the
`networkx` graph coincide with those of this graph because self-loops never
affect connectivity. -/
def graphOf {n : ℕ} (W : Mat n) : SimpleGraph (Fin n) where
  Adj i j := i ≠ j ∧ hasEdge W i j
  symm := by
    intro _ _ h
    exact ⟨fun e => h.1 e.symm, h.2.symm⟩
  loopless := by
    intro _ h
    exact h.1 rfl

instance {n : ℕ} (W : Mat n) : DecidableRel (graphOf W).Adj :=
  fun _ _ => inferInstanceAs (Decidable (_ ∧ _))

/-- Number of connected components of the graph of `W`
(`len(list(nx.connected_components(G)))`). -/
def numComponents {n : ℕ} (W : Mat n) : ℕ :=
  Fintype.card (graphOf W).ConnectedComponent

/-- Model of `G.number_of_edges()`: one count per unordered pair carrying an edge,
plus one per self-loop. -/
def numEdges {n : ℕ} (W : Mat n) : ℕ :=
  (Finset.univ.filter fun p : Fin n × Fin n =>
    (p.1 < p.2 ∧ hasEdge W p.1 p.2) ∨ (p.1 = p.2 ∧ W p.1 p.1 ≠ 0)).card

/-- The connected component of `v` as a finite vertex set. -/
def compFinset {n : ℕ} (W : Mat n) (v : Fin n) : Finset (Fin n) :=
  Finset.univ.filter fun u => (graphOf W).Reachable u v

/-- Model of `max(len(c) for c in components)` with value `0` for the empty graph:
the size of the largest connected component. -/
def giantSize {n : ℕ} (W : Mat n) : ℕ :=
  Finset.univ.sup fun v => (compFinset W v).card

/-- Model of `max(components, key=len)`: `nx.connected_components` lists components
in order of their smallest vertex, and Python `max` keeps the first
maximiser, so the chosen giant component is the component of the least
vertex among components of maximal size. -/
def giantSet {n : ℕ} (W : Mat n) : Finset (Fin n) :=
  match (List.finRange n).find? (fun v => decide ((compFinset W v).card = giantSize W)) with
  | some v => compFinset W v
  | none => ∅

/-- The CoherenceMatrix invariant of spec §3: symmetric, diagonal exactly
`1.0`, every entry in `[0, 1]`. -/
def IsCoherence {n : ℕ} (M : Mat n) : Prop :=
  (∀ i j, M i j = M j i) ∧ (∀ i, M i i = 1) ∧ (∀ i j, 0 ≤ M i j ∧ M i j ≤ 1)

instance {n : ℕ} (M : Mat n) : Decidable (IsCoherence M) := by
  unfold IsCoherence
  infer_instance

/-- Model of `np.linspace(start, stop, num)`: evenly spaced values including both
endpoints; `num = 1` yields `[start]`, a negative `num` raises `ValueError`
(modelled as `none`). -/
def linspace (start stop : ℚ) (num : ℤ) : Option (List ℚ) :=
  if num < 0 then none
  else if num = 1 then some [start]
  else some ((List.range num.toNat).map fun i : ℕ =>
    start + (i : ℚ) * (stop - start) / ((num.toNat : ℚ) - 1))

/-- Model of `np.diff`: adjacent differences. -/
def npDiff : List ℚ → List ℚ
  | [] => []
  | [_] => []
  | a :: b :: rest => (b - a) :: npDiff (b :: rest)

/-- Running scan behind `np.argmax`: the stored index is replaced only on a
strictly larger value, so the first maximiser wins. -/
def argmaxAux (best : ℚ) (bestIdx : ℕ) (i : ℕ) : List ℚ → ℕ
  | [] => bestIdx
  | x :: xs => if best < x then argmaxAux x i (i + 1) xs else argmaxAux best bestIdx (i + 1) xs

/-- Model of `np.argmax`: index of the first occurrence of the maximum; on an empty
array `numpy` raises `ValueError` (modelled as `none`). -/
def argmax : List ℚ → Option ℕ
  | [] => none
  | x :: xs => some (argmaxAux x 0 1 xs)

/-- The record returned by `percolation_curve`. -/
structure PercolationResult where
  epsilons : List ℚ
  n_clusters : List ℕ
  giant_sizes : List ℚ
  fiedler_values : List ℚ
  eps_c : ℚ

/-- Model of `percolation_curve` (lines 142-180).  The floating-point Fiedler value
`eigs[1]` obtained from `np.linalg.eigvalsh` is abstracted by the function
argument `fiedler`; everything else follows the source: sweep
`np.linspace(0.01, 0.99, n_steps)`, record cluster count and
`giant / n` at each ε, record the Fiedler value only when the graph has
more than one node and at least one edge (else 0), and return
`eps_c = epsilons[np.argmax(np.diff(n_clusters)) + 1]`. -/
def percolation_curve {n : ℕ} (fiedler : Mat n → ℚ) (M : Mat n) (n_steps : ℤ) :
    Option PercolationResult :=
  (linspace (1/100) (99/100) n_steps).bind fun epsilons =>
  let n_clusters : List ℕ := epsilons.map fun eps => numComponents (build_graph M eps)
  let giant_sizes : List ℚ := epsilons.map fun eps =>
    (giantSize (build_graph M eps) : ℚ) / (n : ℚ)
  let fiedler_values : List ℚ := epsilons.map fun eps =>
    if 1 < n ∧ 0 < numEdges (build_graph M eps) then fiedler (build_graph M eps) else 0
  (argmax (npDiff (n_clusters.map fun c : ℕ => (c : ℚ)))).map fun idx =>
  { epsilons := epsilons
    n_clusters := n_clusters
    giant_sizes := giant_sizes
    fiedler_values := fiedler_values
    eps_c := epsilons.getD (idx + 1) 0 }

/-- Entrywise model of `np.clip(x, 0, 1)`. -/
def clip01 (x : ℚ) : ℚ := max 0 (min x 1)

/-- One transition of `simulate_dynamic_graph` (lines 201-216): symmetrize
and zero the diagonal of the raw noise and drift draws, add both to the
current matrix, clip every entry to `[0, 1]`, force the diagonal back to
`1.0`, and re-symmetrize by averaging with the transpose. -/
def evolveMatrix {n : ℕ} (M noiseRaw driftRaw : Mat n) : Mat n :=
  let noise := fillDiagonal (symmetrize noiseRaw) 0
  let drift := fillDiagonal (symmetrize driftRaw) 0
  let clipped : Mat n := fun i j => clip01 (M i j + noise i j + drift i j)
  symmetrize (fillDiagonal clipped 1)

/-- The two kinds of topological events of `simulate_dynamic_graph`. -/
inductive TopEvent where
  | FUSION : TopEvent
  | FISSION : TopEvent
deriving DecidableEq

/-- Loop state of `simulate_dynamic_graph`: current matrix, previous
component count (`len(prev_components)`; `none` before the first step),
`n_components_history`, the event log (time, kind, previous count, new
count — the last two model the prev->new detail string), and the
snapshot list (time, matrix, effective weight matrix, component count). -/
structure DynState (n : ℕ) where
  M : Mat n
  prev : Option ℕ
  history : List ℕ
  events : List (ℕ × TopEvent × ℕ × ℕ)
  snapshots : List (ℕ × Mat n × Mat n × ℕ)

/-- Body of the `for t in range(n_steps)` loop of `simulate_dynamic_graph`
(lines 201-238). -/
def dynStep {n : ℕ} (ε : ℚ) (n_steps : ℤ) (noiseRaw driftRaw : Mat n) (t : ℕ)
    (s : DynState n) : DynState n :=
  let Mt := evolveMatrix s.M noiseRaw driftRaw
  let W := build_graph Mt ε
  let c := numComponents W
  let newEvents :=
    match s.prev with
    | none => []
    | some p =>
      if c < p then [(t, TopEvent.FUSION, p, c)]
      else if p < c then [(t, TopEvent.FISSION, p, c)]
      else []
  let newSnaps :=
    if (t : ℤ) = 0 ∨ (t : ℤ) = n_steps / 2 ∨ (t : ℤ) = n_steps - 1 then [(t, Mt, W, c)]
    else []
  { M := Mt
    prev := some c
    history := s.history ++ [c]
    events := s.events ++ newEvents
    snapshots := s.snapshots ++ newSnaps }

/-- The state before the loop of `simulate_dynamic_graph` starts. -/
def initState {n : ℕ} (M_base : Mat n) : DynState n :=
  { M := M_base, prev := none, history := [], events := [], snapshots := [] }

/-- Model of `simulate_dynamic_graph` (lines 187-245).  The normal draws
`rng.normal(0, 0.03, (n, n))` and `rng.normal(0, 0.01, (n, n))` of step `t`
are abstracted as `noiseSeq t` and `driftSeq t`; a negative `n_steps` makes
`range(n_steps)` empty, so the loop body never runs. -/
def simulate_dynamic_graph {n : ℕ} (M_base : Mat n) (noiseSeq driftSeq : ℕ → Mat n)
    (n_steps : ℤ) (ε : ℚ) : DynState n :=
  (List.range n_steps.toNat).foldl
    (fun s t => dynStep ε n_steps (noiseSeq t) (driftSeq t) t s) (initState M_base)

/-- The event log exactly as claim C7 (spec §4.6) describes it: at each step
`t ≥ 1` compare the component count with the count of the previous step; a strict
decrease appends a FUSION event, a strict increase a FISSION event, equality
appends nothing, and step `0` never appends. -/
def eventsFromCounts (counts : List ℕ) : List (ℕ × TopEvent × ℕ × ℕ) :=
  (List.range counts.length).filterMap fun t =>
    if t = 0 then none
    else if counts.getD t 0 < counts.getD (t - 1) 0 then
      some (t, TopEvent.FUSION, counts.getD (t - 1) 0, counts.getD t 0)
    else if counts.getD (t - 1) 0 < counts.getD t 0 then
      some (t, TopEvent.FISSION, counts.getD (t - 1) 0, counts.getD t 0)
    else none

/-- Bounded-length reachability inside the vertex set `S`: `distLE W S k u v`
holds when the graph of `W` has a path from `u` to `v` of length at most `k`
whose successive vertices stay in `S`. -/
def distLE {n : ℕ} (W : Mat n) (S : Finset (Fin n)) : ℕ → Fin n → Fin n → Bool
  | 0, u, v => decide (u = v)
  | k + 1, u, v =>
    decide (u = v) || decide (∃ w ∈ S, hasEdge W u w ∧ distLE W S k w v = true)

/-- Unweighted (hop-count) shortest-path distance inside `S`: the least
path length, `none` when unreachable (every distance in an `n`-vertex graph
is at most `n`, so searching up to `n` is exhaustive). -/
def hopDist {n : ℕ} (W : Mat n) (S : Finset (Fin n)) (u v : Fin n) : Option ℕ :=
  (List.range (n + 1)).find? fun k => distLE W S k u v

/-- Model of `nx.average_shortest_path_length` on the subgraph induced by `S`: the sum
of hop distances over ordered vertex pairs divided by `|S|·(|S|-1)`;
`none` models the `NetworkXError` raised on a disconnected subgraph. -/
def subgraphAPL {n : ℕ} (W : Mat n) (S : Finset (Fin n)) : Option ℚ :=
  if ∀ u ∈ S, ∀ v ∈ S, (hopDist W S u v).isSome then
    some (((∑ u ∈ S, ∑ v ∈ S, (hopDist W S u v).getD 0 : ℕ) : ℚ) /
      ((S.card : ℚ) * ((S.card : ℚ) - 1)))
  else none

/-- The result dict of `check_small_world`: initialised to
a dict holding only is_small_world = False and sigma = 0; the keys `C_ratio` and `L_ratio`
are only added on the successful branch, hence the `Option`s. -/
structure SmallWorldResult where
  is_small_world : Bool
  sigma : ℚ
  C_ratio : Option ℚ := none
  L_ratio : Option ℚ := none
deriving DecidableEq

/-- Model of `result.get(avg_degree, 2)` on line 282: at that point the `result`
dict holds only the keys `is_small_world` and `sigma` (plus, never,
`avg_degree`), so the lookup always returns the default `2` no matter what
the average degree of the graph is. -/
def resultGetAvgDegree (_result : SmallWorldResult) : ℚ := 2

/-- Model of `check_small_world` (lines 252-298).  `np.log` is abstracted by the
function argument `log` and the weighted average clustering
`nx.average_clustering(G, weight=weight)` (which involves cube roots) by
`avgClustering`; every other step follows the source.  The `n_nodes`
parameter is part of the Python signature and is never read by the body. -/
def check_small_world {n : ℕ} (log : ℚ → ℚ) (avgClustering : Mat n → ℚ)
    (W : Mat n) (n_nodes : ℕ) : SmallWorldResult :=
  let result : SmallWorldResult := { is_small_world := false, sigma := 0 }
  if numEdges W = 0 ∨ n < 4 then result
  else
    let C_actual := avgClustering W
    let m : ℚ := (numEdges W : ℚ)
    if n < 2 then result
    else
      let p : ℚ := if 1 < n then 2 * m / ((n : ℚ) * ((n : ℚ) - 1)) else 0
      let C_random := p
      let giant := giantSet W
      if giant.card < 4 then result
      else
        match subgraphAPL W giant with
        | none => result
        | some L_actual =>
          let L_random := log (giant.card : ℚ) / log (max 2 (resultGetAvgDegree result))
          let L_random := if L_random = 0 then 1 else L_random
          if 0 < C_random ∧ 0 < L_actual then
            let gamma_sw := C_actual / C_random
            let lambda_sw := L_actual / max L_random (1/100)
            let sigma := gamma_sw / max lambda_sw (1/100)
            { is_small_world := decide (1 < sigma)
              sigma := sigma
              C_ratio := some gamma_sw
              L_ratio := some lambda_sw }
          else
            { result with sigma := 0 }

/-- Concrete raw draw used by witnesses: every entry `1/2` (written with
`mkRat` so that the kernel can evaluate comparisons on it). -/
def rawR : Mat 2 := fun _ _ => mkRat 1 2

/-- Concrete coherence matrix with a zero off-diagonal entry: the identity
pattern `[[1, 0], [0, 1]]`. -/
def Mc2 : Mat 2 := fun i j => if i = j then 1 else 0

/-- Concrete coherence matrix `[[1, 1/2], [1/2, 1]]`. -/
def Mw : Mat 2 := fun i j => if i = j then 1 else mkRat 1 2

/-- Concrete 1×1 coherence matrix. -/
def Mone : Mat 1 := fun _ _ => 1

/-- Concrete constant raw noise stream (out-of-range values on purpose:
clipping must absorb them). -/
def noiseW : ℕ → Mat 2 := fun _ _ _ => 7

/-- Concrete constant raw drift stream. -/
def driftW : ℕ → Mat 2 := fun _ _ _ => -3

/-- Concrete 4-entity coherence matrix: diagonal `1`, every off-diagonal
coherence `9/10`. -/
def M9 : Mat 4 := fun i j => if i = j then 1 else mkRat 9 10

/-- The effective weight matrix of `M9` at threshold `1/2`: the complete
graph on 4 vertices, every edge weight `9/10` (mean weighted degree
`27/10`). -/
def W9 : Mat 4 := build_graph M9 (mkRat 1 2)

/-- Stand-in for `np.log` in the C9 evaluation, accurate up to the scale
factor `ln 2` at the two points actually consumed: `lg9 2 = 1` and
`lg9 4 = 2`, so `lg9 4 / lg9 2 = ln 4 / ln 2 = 2` exactly. -/
def lg9 : ℚ → ℚ := fun x => if x = 2 then 1 else if x = 4 then 2 else 0

/-- Weighted average clustering of the complete graph whose edge weights
are all equal: every normalised triangle weight is `1`, so the coefficient
is `1` at each node and the average is `1`. -/
def avgClust9 : Mat 4 → ℚ := fun _ => 1

/-! The theorems. -/

/-- C1: for every entity count `n ≥ 1` and every seed — modelled by the raw
uniform draw `R` with entries in `[0,1)` — the matrix returned by
`create_coherence_matrix` (drawing the entries, averaging with the
transpose, then setting the diagonal to `1.0`) is symmetric, has every
diagonal entry exactly `1.0`, and has every entry in `[0,1]`. -/
theorem C1_create_coherence_matrix_invariant {n : ℕ} (hn : 1 ≤ n) (R : Mat n)
    (hR : ∀ i j, 0 ≤ R i j ∧ R i j < 1) :
    IsCoherence (create_coherence_matrix R) := by
  clear hn
  refine ⟨fun i j => ?_, fun i => ?_, fun i j => ?_⟩
  · show fillDiagonal (symmetrize R) 1 i j = fillDiagonal (symmetrize R) 1 j i
    unfold fillDiagonal symmetrize
    by_cases h : i = j
    · subst h; rfl
    · rw [if_neg h, if_neg fun e => h e.symm]
      ring
  · show fillDiagonal (symmetrize R) 1 i i = 1
    unfold fillDiagonal
    rw [if_pos rfl]
  · show 0 ≤ fillDiagonal (symmetrize R) 1 i j ∧ fillDiagonal (symmetrize R) 1 i j ≤ 1
    unfold fillDiagonal symmetrize
    by_cases h : i = j
    · rw [if_pos h]
      exact ⟨by norm_num, le_refl 1⟩
    · rw [if_neg h]
      obtain ⟨h1, h2⟩ := hR i j
      obtain ⟨h3, h4⟩ := hR j i
      constructor
      · positivity
      · linarith

/-- C1 witness: the invariant holds at the concrete draw with every raw
entry `1/2` on two entities. -/
theorem C1_witness :
    (1 ≤ 2 ∧ ∀ i j : Fin 2, 0 ≤ rawR i j ∧ rawR i j < 1) ∧
      IsCoherence (create_coherence_matrix rawR) :=
  ⟨⟨by norm_num, by decide⟩,
    C1_create_coherence_matrix_invariant (by norm_num) rawR (by decide)⟩

lemma build_graph_apply {n : ℕ} (M : Mat n) (ε : ℚ) (i j : Fin n) :
    build_graph M ε i j = if i = j then 0 else if M i j < ε then 0 else M i j := rfl

lemma build_graph_ne_zero_iff {n : ℕ} {M : Mat n} {ε : ℚ} {i j : Fin n} :
    build_graph M ε i j ≠ 0 ↔ i ≠ j ∧ ε ≤ M i j ∧ M i j ≠ 0 := by
  rw [build_graph_apply]
  by_cases h : i = j
  · simp [h]
  · by_cases hlt : M i j < ε
    · simp [h, hlt, not_le.mpr hlt]
    · simp [h, hlt, not_lt.mp hlt]

lemma hasEdge_elim {n : ℕ} {W : Mat n} {i j : Fin n} (h : hasEdge W i j) :
    W i j ≠ 0 ∨ W j i ≠ 0 := h

lemma hasEdge_build_graph_iff {n : ℕ} {M : Mat n} (hM : ∀ i j, M i j = M j i)
    {ε : ℚ} {i j : Fin n} :
    hasEdge (build_graph M ε) i j ↔ i ≠ j ∧ ε ≤ M i j ∧ M i j ≠ 0 := by
  unfold hasEdge
  rw [build_graph_ne_zero_iff, build_graph_ne_zero_iff, hM j i]
  constructor
  · rintro (h | h)
    · exact h
    · exact ⟨fun e => h.1 e.symm, h.2⟩
  · intro h
    exact Or.inl h

lemma no_self_loop {n : ℕ} (M : Mat n) (ε : ℚ) (i : Fin n) :
    ¬ hasEdge (build_graph M ε) i i := by
  intro h
  rcases hasEdge_elim h with hz | hz <;>
    exact hz (by rw [build_graph_apply, if_pos rfl])

lemma build_graph_zero_of_lt {n : ℕ} {M : Mat n} {ε : ℚ}
    (h : ∀ i j, i ≠ j → M i j < ε) : ∀ i j, build_graph M ε i j = 0 := by
  intro i j
  rw [build_graph_apply]
  by_cases hij : i = j
  · rw [if_pos hij]
  · rw [if_neg hij, if_pos (h i j hij)]

lemma reachable_eq_of_no_edges {n : ℕ} {W : Mat n} (h0 : ∀ i j, W i j = 0)
    {u v : Fin n} (huv : (graphOf W).Reachable u v) : u = v := by
  obtain ⟨w⟩ := huv
  induction w with
  | nil => rfl
  | cons ha _ _ =>
    rcases hasEdge_elim ha.2 with h | h <;> exact absurd (h0 _ _) h

lemma numComponents_of_no_edges {n : ℕ} {W : Mat n} (h0 : ∀ i j, W i j = 0) :
    numComponents W = n := by
  have hb : Function.Bijective (graphOf W).connectedComponentMk := by
    constructor
    · intro u v h
      exact reachable_eq_of_no_edges h0 (SimpleGraph.ConnectedComponent.exact h)
    · exact SimpleGraph.ConnectedComponent.ind fun v => ⟨v, rfl⟩
  have hc := Fintype.card_of_bijective hb
  rw [numComponents, ← hc, Fintype.card_fin]

lemma numEdges_of_no_edges {n : ℕ} {W : Mat n} (h0 : ∀ i j, W i j = 0) :
    numEdges W = 0 := by
  rw [numEdges, Finset.card_eq_zero, Finset.filter_eq_empty_iff]
  intro p _
  rintro (⟨-, he⟩ | ⟨-, he⟩)
  · rcases hasEdge_elim he with h | h <;> exact h (h0 _ _)
  · exact he (h0 _ _)

/-- C2 counterexample: for `M = [[1, 0], [0, 1]]` and threshold `t = 0` the
off-diagonal entry `M[0][1] = 0` satisfies `M[0][1] ≥ t` and `0 ≠ 1`, yet
the built graph has no edge `(0, 1)`: `nx.from_numpy_array` creates edges
only for nonzero entries, so the claimed "edge iff `M[i][j] ≥ t`" and
"`t ≤ 0` yields the complete graph" both fail at this input. -/
theorem C2_counterexample :
    (0 : ℚ) ≤ Mc2 0 1 ∧ (0 : Fin 2) ≠ 1 ∧ ¬ hasEdge (build_graph Mc2 0) 0 1 := by
  decide

/-- C2 amended: for every symmetric matrix `M` and threshold `t`, the graph
of `build_graph M t` has the edge `(i, j)`, `i ≠ j`, iff `M[i][j] ≥ t` AND
`M[i][j] ≠ 0`, and then its weight is `M[i][j]`; it never has a self-loop;
`t ≤ 0` (for entries `≥ 0`) yields an edge at every off-diagonal pair with
a nonzero entry — the complete graph minus self-loops when all off-diagonal
entries are nonzero; `t` above every off-diagonal value yields a graph with
no edges and `n` isolated components. -/
theorem C2_build_graph_edges {n : ℕ} (M : Mat n) (t : ℚ)
    (hM : ∀ i j, M i j = M j i) :
    (∀ i j, hasEdge (build_graph M t) i j ↔ i ≠ j ∧ t ≤ M i j ∧ M i j ≠ 0) ∧
    (∀ i j, hasEdge (build_graph M t) i j → build_graph M t i j = M i j) ∧
    (∀ i, ¬ hasEdge (build_graph M t) i i) ∧
    (t ≤ 0 → (∀ i j, 0 ≤ M i j) → ∀ i j,
      hasEdge (build_graph M t) i j ↔ i ≠ j ∧ M i j ≠ 0) ∧
    ((∀ i j, i ≠ j → M i j < t) →
      numEdges (build_graph M t) = 0 ∧ numComponents (build_graph M t) = n) := by
  refine ⟨fun i j => hasEdge_build_graph_iff hM, ?_, fun i => no_self_loop M t i, ?_, ?_⟩
  · intro i j he
    rw [hasEdge_build_graph_iff hM] at he
    rw [build_graph_apply, if_neg he.1, if_neg (not_lt.mpr he.2.1)]
  · intro ht h0 i j
    rw [hasEdge_build_graph_iff hM]
    constructor
    · rintro ⟨hij, -, hz⟩
      exact ⟨hij, hz⟩
    · rintro ⟨hij, hz⟩
      exact ⟨hij, le_trans ht (h0 i j), hz⟩
  · intro hlt
    have h0 := build_graph_zero_of_lt hlt
    exact ⟨numEdges_of_no_edges h0, numComponents_of_no_edges h0⟩

/-- C2 witness: the amended statement applied to the concrete symmetric
matrix `[[1, 1/2], [1/2, 1]]` at threshold `1/4`. -/
theorem C2_build_graph_edges_witness :
    (∀ i j : Fin 2, Mw i j = Mw j i) ∧
    ((∀ i j, hasEdge (build_graph Mw (1/4)) i j ↔
        i ≠ j ∧ 1/4 ≤ Mw i j ∧ Mw i j ≠ 0) ∧
      (∀ i j, hasEdge (build_graph Mw (1/4)) i j → build_graph Mw (1/4) i j = Mw i j) ∧
      (∀ i, ¬ hasEdge (build_graph Mw (1/4)) i i) ∧
      ((1/4 : ℚ) ≤ 0 → (∀ i j, 0 ≤ Mw i j) → ∀ i j,
        hasEdge (build_graph Mw (1/4)) i j ↔ i ≠ j ∧ Mw i j ≠ 0) ∧
      ((∀ i j, i ≠ j → Mw i j < 1/4) →
        numEdges (build_graph Mw (1/4)) = 0 ∧ numComponents (build_graph Mw (1/4)) = 2)) :=
  ⟨by decide, C2_build_graph_edges Mw (1/4) (by decide)⟩

lemma build_graph_ne_zero_mono {n : ℕ} {M : Mat n} {t1 t2 : ℚ} (h : t1 ≤ t2)
    {i j : Fin n} (hz : build_graph M t2 i j ≠ 0) : build_graph M t1 i j ≠ 0 := by
  rw [build_graph_ne_zero_iff] at hz ⊢
  exact ⟨hz.1, le_trans h hz.2.1, hz.2.2⟩

lemma hasEdge_build_graph_mono {n : ℕ} {M : Mat n} {t1 t2 : ℚ} (h : t1 ≤ t2)
    {i j : Fin n} (he : hasEdge (build_graph M t2) i j) :
    hasEdge (build_graph M t1) i j := by
  rcases hasEdge_elim he with hz | hz
  · exact Or.inl (build_graph_ne_zero_mono h hz)
  · exact Or.inr (build_graph_ne_zero_mono h hz)

lemma graphOf_build_graph_mono {n : ℕ} (M : Mat n) {t1 t2 : ℚ} (h : t1 ≤ t2) :
    graphOf (build_graph M t2) ≤ graphOf (build_graph M t1) := by
  intro i j hadj
  exact ⟨hadj.1, hasEdge_build_graph_mono h hadj.2⟩

lemma card_components_le_of_le {V : Type} [Fintype V] [DecidableEq V]
    {G H : SimpleGraph V} [DecidableRel G.Adj] [DecidableRel H.Adj] (h : G ≤ H) :
    Fintype.card H.ConnectedComponent ≤ Fintype.card G.ConnectedComponent := by
  apply Fintype.card_le_of_surjective
    (SimpleGraph.ConnectedComponent.map (SimpleGraph.Hom.mapSpanningSubgraphs h))
  apply SimpleGraph.ConnectedComponent.ind
  intro v
  exact ⟨G.connectedComponentMk v,
    by simp [SimpleGraph.ConnectedComponent.map_mk,
      SimpleGraph.Hom.mapSpanningSubgraphs_apply]⟩

lemma numEdges_build_graph_mono {n : ℕ} (M : Mat n) {t1 t2 : ℚ} (h : t1 ≤ t2) :
    numEdges (build_graph M t2) ≤ numEdges (build_graph M t1) := by
  apply Finset.card_le_card
  apply Finset.monotone_filter_right
  intro p hp
  rcases hp with ⟨hlt, he⟩ | ⟨-, hz⟩
  · exact Or.inl ⟨hlt, hasEdge_build_graph_mono h he⟩
  · exact absurd (by rw [build_graph_apply, if_pos rfl]) hz

/-- C3: for every matrix `M` and thresholds `t1 ≤ t2`, the graph induced at
`t2` has its edges contained in (hence no more numerous than) the edges
induced at `t1`, and at least as many connected components; in particular
the cluster count at threshold `0.01` is at most the one at `0.99`. -/
theorem C3_threshold_monotone {n : ℕ} (M : Mat n) (t1 t2 : ℚ) (h : t1 ≤ t2) :
    (∀ i j, hasEdge (build_graph M t2) i j → hasEdge (build_graph M t1) i j) ∧
    numEdges (build_graph M t2) ≤ numEdges (build_graph M t1) ∧
    numComponents (build_graph M t1) ≤ numComponents (build_graph M t2) ∧
    numComponents (build_graph M (1/100)) ≤ numComponents (build_graph M (99/100)) := by
  refine ⟨fun i j => hasEdge_build_graph_mono h, numEdges_build_graph_mono M h, ?_, ?_⟩
  · exact card_components_le_of_le (graphOf_build_graph_mono M h)
  · exact card_components_le_of_le (graphOf_build_graph_mono M (by norm_num))

/-- C3 witness: the monotonicity statement applied to the concrete matrix
`[[1, 1/2], [1/2, 1]]` with thresholds `1/4 ≤ 1/2`. -/
theorem C3_witness :
    (1/4 : ℚ) ≤ 1/2 ∧
    ((∀ i j, hasEdge (build_graph Mw (1/2)) i j → hasEdge (build_graph Mw (1/4)) i j) ∧
      numEdges (build_graph Mw (1/2)) ≤ numEdges (build_graph Mw (1/4)) ∧
      numComponents (build_graph Mw (1/4)) ≤ numComponents (build_graph Mw (1/2)) ∧
      numComponents (build_graph Mw (1/100)) ≤ numComponents (build_graph Mw (99/100))) :=
  ⟨by norm_num, C3_threshold_monotone Mw (1/4) (1/2) (by norm_num)⟩

lemma mkRat_half_eq : (mkRat 1 2 : ℚ) = 1/2 := by
  rw [Rat.mkRat_eq_divInt, Rat.divInt_eq_div]
  norm_num

lemma clip01_mem (x : ℚ) : 0 ≤ clip01 x ∧ clip01 x ≤ 1 := by
  unfold clip01
  constructor
  · exact le_max_left 0 _
  · exact max_le (by norm_num) (min_le_right x 1)

lemma symmetrize_symm {n : ℕ} (A : Mat n) (i j : Fin n) :
    symmetrize A i j = symmetrize A j i := by
  unfold symmetrize
  ring

lemma fillDiagonal_one_mem {n : ℕ} (A : Mat n)
    (hA : ∀ i j, 0 ≤ A i j ∧ A i j ≤ 1) (i j : Fin n) :
    0 ≤ fillDiagonal A 1 i j ∧ fillDiagonal A 1 i j ≤ 1 := by
  unfold fillDiagonal
  by_cases h : i = j
  · rw [if_pos h]
    norm_num
  · rw [if_neg h]
    exact hA i j

lemma symmetrize_mem {n : ℕ} (B : Mat n)
    (hB : ∀ i j, 0 ≤ B i j ∧ B i j ≤ 1) (i j : Fin n) :
    0 ≤ symmetrize B i j ∧ symmetrize B i j ≤ 1 := by
  unfold symmetrize
  obtain ⟨a, b⟩ := hB i j
  obtain ⟨c, d⟩ := hB j i
  constructor
  · positivity
  · linarith

lemma IsCoherence_symmetrize_fill {n : ℕ} (A : Mat n)
    (hA : ∀ i j, 0 ≤ A i j ∧ A i j ≤ 1) :
    IsCoherence (symmetrize (fillDiagonal A 1)) := by
  refine ⟨fun i j => symmetrize_symm _ i j, fun i => ?_,
    fun i j => symmetrize_mem _ (fillDiagonal_one_mem A hA) i j⟩
  unfold symmetrize fillDiagonal
  rw [if_pos rfl]
  norm_num

lemma evolveMatrix_eq {n : ℕ} (M nR dR : Mat n) :
    evolveMatrix M nR dR =
      symmetrize (fillDiagonal
        (fun i j => clip01 (M i j + fillDiagonal (symmetrize nR) 0 i j +
          fillDiagonal (symmetrize dR) 0 i j)) 1) := rfl

lemma foldl_preserves {α β : Type _} (P : β → Prop) (f : β → α → β) (l : List α)
    (b : β) (hb : P b) (hf : ∀ b a, P b → P (f b a)) : P (l.foldl f b) := by
  induction l generalizing b with
  | nil => exact hb
  | cons a l ih => exact ih _ (hf b a hb)

/-- C6: starting from any matrix satisfying the CoherenceMatrix invariant,
the matrix evolved by the transition of `simulate_dynamic_graph` — add the
symmetric zero-diagonal noise and drift, clip every entry to `[0,1]`, force
the diagonal to `1.0`, re-symmetrize by averaging with the transpose — is
again symmetric, has diagonal exactly `1.0`, and has every entry in
`[0,1]`; consequently the matrix held after any number of simulation steps
still satisfies the invariant. -/
theorem C6_evolve_invariant {n : ℕ} (M : Mat n) (noiseSeq driftSeq : ℕ → Mat n)
    (k : ℤ) (ε : ℚ) (hM : IsCoherence M) :
    (∀ t, IsCoherence (evolveMatrix M (noiseSeq t) (driftSeq t))) ∧
    IsCoherence ((simulate_dynamic_graph M noiseSeq driftSeq k ε).M) := by
  have hstep : ∀ (A nR dR : Mat n), IsCoherence (evolveMatrix A nR dR) := by
    intro A nR dR
    rw [evolveMatrix_eq]
    exact IsCoherence_symmetrize_fill _ fun i j => clip01_mem _
  refine ⟨fun t => hstep M _ _, ?_⟩
  unfold simulate_dynamic_graph
  apply foldl_preserves (fun s : DynState n => IsCoherence s.M)
  · exact hM
  · intro s t _
    exact hstep s.M _ _

/-- C6 witness: the invariant statement applied to the concrete coherent
matrix `[[1, 1/2], [1/2, 1]]` with extreme constant perturbation draws. -/
theorem C6_witness :
    IsCoherence Mw ∧
    ((∀ t, IsCoherence (evolveMatrix Mw (noiseW t) (driftW t))) ∧
      IsCoherence ((simulate_dynamic_graph Mw noiseW driftW 5 (1/2)).M)) :=
  ⟨by decide, C6_evolve_invariant Mw noiseW driftW 5 (1/2) (by decide)⟩

lemma getLast?_getD_eq {l : List ℕ} {p : ℕ} (h : l.getLast? = some p) :
    l.getD (l.length - 1) 0 = p := by
  cases l with
  | nil => simp at h
  | cons a t =>
    have hlen : (a :: t).length - 1 < (a :: t).length := by simp
    rw [List.getD_eq_getElem _ _ hlen]
    rw [List.getLast?_eq_getElem?] at h
    rw [List.getElem?_eq_getElem hlen] at h
    exact Option.some.inj h

lemma eventsFromCounts_snoc (h : List ℕ) (c : ℕ) :
    eventsFromCounts (h ++ [c]) =
      eventsFromCounts h ++
        (match h.getLast? with
          | none => []
          | some p =>
            if c < p then [(h.length, TopEvent.FUSION, p, c)]
            else if p < c then [(h.length, TopEvent.FISSION, p, c)]
            else []) := by
  unfold eventsFromCounts
  have hlen : (h ++ [c]).length = h.length + 1 := by simp
  rw [hlen, List.range_succ, List.filterMap_append]
  congr 1
  · apply List.filterMap_congr
    intro t ht
    rw [List.mem_range] at ht
    by_cases h0 : t = 0
    · rw [if_pos h0, if_pos h0]
    · have h1 : t - 1 < h.length := lt_of_le_of_lt (Nat.sub_le t 1) ht
      rw [if_neg h0, if_neg h0,
        List.getD_append _ _ _ _ h1, List.getD_append _ _ _ _ ht]
  · simp only [List.filterMap_cons, List.filterMap_nil]
    cases hl : h.getLast? with
    | none =>
      have he : h = [] := by simpa using hl
      subst he
      simp
    | some p =>
      have hne : h ≠ [] := by
        intro he
        subst he
        simp at hl
      have hlen0 : h.length ≠ 0 := by simpa [List.length_eq_zero] using hne
      have hp : (h ++ [c]).getD (h.length - 1) 0 = p := by
        rw [List.getD_append _ _ _ _ (by omega : h.length - 1 < h.length)]
        exact getLast?_getD_eq hl
      have hc : (h ++ [c]).getD h.length 0 = c := by
        rw [List.getD_append_right _ _ _ _ (le_refl _)]
        simp
      rw [if_neg hlen0, hp, hc]
      by_cases h1 : c < p
      · simp [h1]
      · by_cases h2 : p < c
        · simp [h1, h2]
        · simp [h1, h2]

lemma dynStep_fields {n : ℕ} (ε : ℚ) (ns : ℤ) (nR dR : Mat n) (t : ℕ) (s : DynState n) :
    (dynStep ε ns nR dR t s).events = s.events ++
        (match s.prev with
          | none => []
          | some p =>
            if numComponents (build_graph (evolveMatrix s.M nR dR) ε) < p then
              [(t, TopEvent.FUSION, p, numComponents (build_graph (evolveMatrix s.M nR dR) ε))]
            else if p < numComponents (build_graph (evolveMatrix s.M nR dR) ε) then
              [(t, TopEvent.FISSION, p, numComponents (build_graph (evolveMatrix s.M nR dR) ε))]
            else []) ∧
      (dynStep ε ns nR dR t s).history =
        s.history ++ [numComponents (build_graph (evolveMatrix s.M nR dR) ε)] ∧
      (dynStep ε ns nR dR t s).prev =
        some (numComponents (build_graph (evolveMatrix s.M nR dR) ε)) :=
  ⟨rfl, rfl, rfl⟩

/-- C7: in every run of `simulate_dynamic_graph` the event log is exactly
the one obtained by scanning the component-count history: at each step
`t ≥ 1` a FUSION event is appended iff the count strictly decreased, a
FISSION event iff it strictly increased, nothing on equality, and the first
step (`t = 0`, no prior partition) never emits an event; the history has
one count per executed step. -/
theorem C7_events_characterization {n : ℕ} (M : Mat n)
    (noiseSeq driftSeq : ℕ → Mat n) (k : ℤ) (ε : ℚ) :
    (simulate_dynamic_graph M noiseSeq driftSeq k ε).events =
      eventsFromCounts (simulate_dynamic_graph M noiseSeq driftSeq k ε).history ∧
    (simulate_dynamic_graph M noiseSeq driftSeq k ε).history.length = k.toNat := by
  unfold simulate_dynamic_graph
  suffices h : ∀ m,
      ((List.range m).foldl
        (fun s t => dynStep ε k (noiseSeq t) (driftSeq t) t s) (initState M)).events =
        eventsFromCounts ((List.range m).foldl
          (fun s t => dynStep ε k (noiseSeq t) (driftSeq t) t s) (initState M)).history ∧
      ((List.range m).foldl
        (fun s t => dynStep ε k (noiseSeq t) (driftSeq t) t s) (initState M)).history.length = m ∧
      ((List.range m).foldl
        (fun s t => dynStep ε k (noiseSeq t) (driftSeq t) t s) (initState M)).prev =
        ((List.range m).foldl
          (fun s t => dynStep ε k (noiseSeq t) (driftSeq t) t s) (initState M)).history.getLast? by
    exact ⟨(h k.toNat).1, (h k.toNat).2.1⟩
  intro m
  induction m with
  | zero => exact ⟨rfl, rfl, rfl⟩
  | succ m ih =>
    obtain ⟨ihe, ihl, ihp⟩ := ih
    rw [List.range_succ, List.foldl_append, List.foldl_cons, List.foldl_nil]
    set s := (List.range m).foldl
      (fun s t => dynStep ε k (noiseSeq t) (driftSeq t) t s) (initState M) with hs
    obtain ⟨he, hh, hp⟩ := dynStep_fields ε k (noiseSeq m) (driftSeq m) m s
    refine ⟨?_, ?_, ?_⟩
    · rw [he, hh, eventsFromCounts_snoc, ihe, ihl, ihp]
    · rw [hh, List.length_append, ihl]
      rfl
    · rw [hp, hh]
      simp

/-- C8 counterexample: `build_graph` does not reject the out-of-range
threshold `3/2`: it performs the computation and returns the empty-edge
weight matrix on two entities, whose graph has `2` components. -/
theorem C8_counterexample :
    ¬ ((3/2 : ℚ) ≤ 1) ∧ (∀ i j, build_graph Mw (3/2) i j = 0) ∧
      numComponents (build_graph Mw (3/2)) = 2 := by
  have hz : ∀ i j, i ≠ j → Mw i j < 3/2 := by
    intro i j _
    unfold Mw
    by_cases h : i = j
    · rw [if_pos h]
      norm_num
    · rw [if_neg h, mkRat_half_eq]
      norm_num
  refine ⟨by norm_num, build_graph_zero_of_lt hz,
    numComponents_of_no_edges (build_graph_zero_of_lt hz)⟩

/-- C8 amended: no validation is performed anywhere: `build_graph` accepts
any threshold outside `[0,1]` and computes the result (a threshold above
`1` zeroes every entry of a matrix bounded by `1`); a negative step count
makes `simulate_dynamic_graph` run zero steps and return the initial empty
traces instead of failing; and `percolation_curve` fails on a negative
step count only because `np.linspace` raises inside the computation, never
through an upfront validation step. -/
theorem C8_no_validation {n : ℕ} (M : Mat n) (fiedler : Mat n → ℚ)
    (noiseSeq driftSeq : ℕ → Mat n) (t : ℚ) (k : ℤ) (ε : ℚ)
    (hM : ∀ i j, M i j ≤ 1) (ht : 1 < t) (hk : k < 0) :
    (∀ i j, build_graph M t i j = 0) ∧
    simulate_dynamic_graph M noiseSeq driftSeq k ε = initState M ∧
    percolation_curve fiedler M k = none := by
  refine ⟨?_, ?_, ?_⟩
  · exact build_graph_zero_of_lt fun i j _ => lt_of_le_of_lt (hM i j) ht
  · unfold simulate_dynamic_graph
    rw [Int.toNat_of_nonpos hk.le]
    rfl
  · have hlin : linspace (1/100) (99/100) k = none := by
      unfold linspace
      rw [if_pos hk]
    unfold percolation_curve
    rw [hlin]
    rfl

/-- C8 witness: the amended statement at the concrete inputs: matrix
`[[1, 1/2], [1/2, 1]]`, threshold `2`, step count `-1`. -/
theorem C8_witness :
    ((∀ i j, Mw i j ≤ 1) ∧ (1 : ℚ) < 2 ∧ (-1 : ℤ) < 0) ∧
    ((∀ i j, build_graph Mw 2 i j = 0) ∧
      simulate_dynamic_graph Mw (fun _ => Mw) (fun _ => Mw) (-1) (1/2) = initState Mw ∧
      percolation_curve (fun _ => 0) Mw (-1) = none) :=
  ⟨⟨by decide, by norm_num, by norm_num⟩,
    C8_no_validation Mw (fun _ => 0) (fun _ => Mw) (fun _ => Mw) 2 (-1) (1/2)
      (by decide) (by norm_num) (by norm_num)⟩

lemma linspace_eq_of_two_le {a b : ℚ} {k : ℤ} (hk : 2 ≤ k) :
    linspace a b k = some ((List.range k.toNat).map fun i : ℕ =>
      a + (i : ℚ) * (b - a) / ((k.toNat : ℚ) - 1)) := by
  unfold linspace
  rw [if_neg (by omega), if_neg (by omega)]

lemma getD_map_range (f : ℕ → ℚ) {k i : ℕ} (h : i < k) :
    ((List.range k).map f).getD i 0 = f i := by
  rw [List.getD_eq_getElem _ _ (by simpa using h)]
  simp

lemma npDiff_length (l : List ℚ) : (npDiff l).length = l.length - 1 := by
  induction l with
  | nil => rfl
  | cons a t ih =>
    cases t with
    | nil => rfl
    | cons b r =>
      rw [npDiff, List.length_cons, ih]
      simp only [List.length_cons]
      omega

lemma npDiff_getD (l : List ℚ) : ∀ i, i + 1 < l.length →
    (npDiff l).getD i 0 = l.getD (i + 1) 0 - l.getD i 0 := by
  induction l with
  | nil =>
    intro i h
    simp at h
  | cons a t ih =>
    cases t with
    | nil =>
      intro i h
      simp at h
    | cons b r =>
      intro i h
      cases i with
      | zero => rfl
      | succ i =>
        rw [npDiff]
        have hstep : ((b - a) :: npDiff (b :: r)).getD (i + 1) 0 =
            (npDiff (b :: r)).getD i 0 := by simp
        rw [hstep, ih i (by simpa using h)]
        have h1 : (a :: b :: r).getD (i + 1 + 1) 0 = (b :: r).getD (i + 1) 0 := by simp
        have h2 : (a :: b :: r).getD (i + 1) 0 = (b :: r).getD i 0 := by simp
        rw [h1, h2]

lemma argmaxAux_out (rest : List ℚ) : ∀ (best : ℚ) (bI i : ℕ),
    (argmaxAux best bI i rest = bI ∧ ∀ m, m < rest.length → rest.getD m 0 ≤ best) ∨
    (∃ m, m < rest.length ∧ argmaxAux best bI i rest = i + m ∧
      best < rest.getD m 0 ∧
      (∀ m2, m2 < rest.length → rest.getD m2 0 ≤ rest.getD m 0) ∧
      (∀ m2, m2 < m → rest.getD m2 0 < rest.getD m 0)) := by
  induction rest with
  | nil =>
    intro best bI i
    left
    refine ⟨rfl, fun m hm => ?_⟩
    simp at hm
  | cons x xs ih =>
    intro best bI i
    rw [argmaxAux]
    by_cases hx : best < x
    · rw [if_pos hx]
      rcases ih x i (i + 1) with ⟨heq, hle⟩ | ⟨m, hm, heq, hgt, hmax, hstrict⟩
      · right
        refine ⟨0, by simp, by rw [heq]; omega, hx, ?_, fun m2 hm2 => absurd hm2 (Nat.not_lt_zero m2)⟩
        intro m2 hm2
        cases m2 with
        | zero => exact le_refl _
        | succ m2 =>
          have : (x :: xs).getD (m2 + 1) 0 = xs.getD m2 0 := by simp
          rw [this]
          exact hle m2 (by simpa using hm2)
      · right
        refine ⟨m + 1, by simpa using hm, by rw [heq]; omega, ?_, ?_, ?_⟩
        · have : (x :: xs).getD (m + 1) 0 = xs.getD m 0 := by simp
          rw [this]
          exact lt_trans hx hgt
        · intro m2 hm2
          have hm' : (x :: xs).getD (m + 1) 0 = xs.getD m 0 := by simp
          rw [hm']
          cases m2 with
          | zero => exact le_of_lt hgt
          | succ m2 =>
            have : (x :: xs).getD (m2 + 1) 0 = xs.getD m2 0 := by simp
            rw [this]
            exact hmax m2 (by simpa using hm2)
        · intro m2 hm2
          have hm' : (x :: xs).getD (m + 1) 0 = xs.getD m 0 := by simp
          rw [hm']
          cases m2 with
          | zero => exact hgt
          | succ m2 =>
            have : (x :: xs).getD (m2 + 1) 0 = xs.getD m2 0 := by simp
            rw [this]
            exact hstrict m2 (by omega)
    · rw [if_neg hx]
      rcases ih best bI (i + 1) with ⟨heq, hle⟩ | ⟨m, hm, heq, hgt, hmax, hstrict⟩
      · left
        refine ⟨heq, fun m2 hm2 => ?_⟩
        cases m2 with
        | zero => exact not_lt.mp hx
        | succ m2 =>
          have : (x :: xs).getD (m2 + 1) 0 = xs.getD m2 0 := by simp
          rw [this]
          exact hle m2 (by simpa using hm2)
      · right
        refine ⟨m + 1, by simpa using hm, by rw [heq]; omega, ?_, ?_, ?_⟩
        · have : (x :: xs).getD (m + 1) 0 = xs.getD m 0 := by simp
          rw [this]
          exact hgt
        · intro m2 hm2
          have hm' : (x :: xs).getD (m + 1) 0 = xs.getD m 0 := by simp
          rw [hm']
          cases m2 with
          | zero => exact le_of_lt (lt_of_le_of_lt (not_lt.mp hx) hgt)
          | succ m2 =>
            have : (x :: xs).getD (m2 + 1) 0 = xs.getD m2 0 := by simp
            rw [this]
            exact hmax m2 (by simpa using hm2)
        · intro m2 hm2
          have hm' : (x :: xs).getD (m + 1) 0 = xs.getD m 0 := by simp
          rw [hm']
          cases m2 with
          | zero => exact lt_of_le_of_lt (not_lt.mp hx) hgt
          | succ m2 =>
            have : (x :: xs).getD (m2 + 1) 0 = xs.getD m2 0 := by simp
            rw [this]
            exact hstrict m2 (by omega)

lemma argmax_spec (x : ℚ) (xs : List ℚ) :
    ∃ j, argmax (x :: xs) = some j ∧ j < (x :: xs).length ∧
      (∀ i, i < (x :: xs).length → (x :: xs).getD i 0 ≤ (x :: xs).getD j 0) ∧
      (∀ i, i < j → (x :: xs).getD i 0 < (x :: xs).getD j 0) := by
  rcases argmaxAux_out xs x 0 1 with ⟨heq, hle⟩ | ⟨m, hm, heq, hgt, hmax, hstrict⟩
  · refine ⟨0, by rw [argmax, heq], by simp, ?_, fun i hi => absurd hi (Nat.not_lt_zero i)⟩
    intro i hi
    cases i with
    | zero => exact le_refl _
    | succ i =>
      have : (x :: xs).getD (i + 1) 0 = xs.getD i 0 := by simp
      rw [this]
      exact hle i (by simpa using hi)
  · refine ⟨m + 1, ?_, by simpa using hm, ?_, ?_⟩
    · rw [argmax, heq]
      congr 1
      omega
    · intro i hi
      have hm' : (x :: xs).getD (m + 1) 0 = xs.getD m 0 := by simp
      rw [hm']
      cases i with
      | zero => exact le_of_lt hgt
      | succ i =>
        have : (x :: xs).getD (i + 1) 0 = xs.getD i 0 := by simp
        rw [this]
        exact hmax i (by simpa using hi)
    · intro i hi
      have hm' : (x :: xs).getD (m + 1) 0 = xs.getD m 0 := by simp
      rw [hm']
      cases i with
      | zero => exact hgt
      | succ i =>
        have : (x :: xs).getD (i + 1) 0 = xs.getD i 0 := by simp
        rw [this]
        exact hstrict i (by omega)

/-- C5 counterexample: at step count `1` the sweep does not return a trace:
`np.diff` of the single-entry cluster list is empty and `np.argmax` of an
empty array raises `ValueError` (modelled as `none`), so "for every step
count" fails below `2` (step count `0` fails the same way and negative
counts already fail inside `np.linspace`). -/
theorem C5_counterexample : percolation_curve (fun _ => 0) Mone 1 = none := rfl

/-- C5 amended: for every nonempty matrix and every step count `≥ 2`,
`percolation_curve` returns a trace evaluated at `n_steps` evenly spaced
thresholds from `0.01` to `0.99`, records the cluster count and the
giant-component fraction (giant size / N) at each, records the abstracted
Fiedler value only when the graph has more than one node and at least one
edge (else `0`), and returns as `eps_c` the swept value at the index one
past the first position of the largest single-step increase of the
cluster-count sequence. -/
theorem C5_percolation_sweep {n : ℕ} (fiedler : Mat n → ℚ) (M : Mat n) (k : ℤ)
    (hn : 0 < n) (hk : 2 ≤ k) :
    ∃ r, percolation_curve fiedler M k = some r ∧
      r.epsilons.length = k.toNat ∧
      (∀ i, i < k.toNat → r.epsilons.getD i 0 =
        1/100 + (i : ℚ) * (99/100 - 1/100) / ((k.toNat : ℚ) - 1)) ∧
      r.n_clusters = r.epsilons.map (fun e => numComponents (build_graph M e)) ∧
      r.giant_sizes = r.epsilons.map (fun e => (giantSize (build_graph M e) : ℚ) / (n : ℚ)) ∧
      r.fiedler_values = r.epsilons.map (fun e =>
        if 1 < n ∧ 0 < numEdges (build_graph M e) then fiedler (build_graph M e) else 0) ∧
      (∃ idx, idx + 1 < k.toNat ∧
        (∀ i, i < (npDiff (r.n_clusters.map fun c : ℕ => (c : ℚ))).length →
          (npDiff (r.n_clusters.map fun c : ℕ => (c : ℚ))).getD i 0 ≤
            (npDiff (r.n_clusters.map fun c : ℕ => (c : ℚ))).getD idx 0) ∧
        (∀ i, i < idx →
          (npDiff (r.n_clusters.map fun c : ℕ => (c : ℚ))).getD i 0 <
            (npDiff (r.n_clusters.map fun c : ℕ => (c : ℚ))).getD idx 0) ∧
        r.eps_c = r.epsilons.getD (idx + 1) 0) := by
  clear hn
  have hk2 : 2 ≤ k.toNat := by omega
  have hlin := linspace_eq_of_two_le (a := 1/100) (b := 99/100) hk
  set eps : List ℚ := (List.range k.toNat).map (fun i : ℕ =>
    1/100 + (i : ℚ) * (99/100 - 1/100) / ((k.toNat : ℚ) - 1)) with heps
  set nc : List ℕ := eps.map (fun e => numComponents (build_graph M e)) with hnc
  set d : List ℚ := npDiff (nc.map fun c : ℕ => (c : ℚ)) with hd
  have hdlen : d.length = k.toNat - 1 := by
    rw [hd, npDiff_length, hnc, heps]
    simp
  have hdpos : d ≠ [] := by
    intro hnil
    rw [hnil] at hdlen
    simp only [List.length_nil] at hdlen
    omega
  obtain ⟨x, xs, hxxs⟩ := List.exists_cons_of_ne_nil hdpos
  obtain ⟨j, hj_eq, hj_lt, hj_max, hj_strict⟩ := argmax_spec x xs
  rw [← hxxs] at hj_eq hj_lt hj_max hj_strict
  have hpc : percolation_curve fiedler M k =
      (argmax d).map fun idx =>
        { epsilons := eps
          n_clusters := nc
          giant_sizes := eps.map fun e => (giantSize (build_graph M e) : ℚ) / (n : ℚ)
          fiedler_values := eps.map fun e =>
            if 1 < n ∧ 0 < numEdges (build_graph M e) then fiedler (build_graph M e) else 0
          eps_c := eps.getD (idx + 1) 0 } := by
    unfold percolation_curve
    rw [hlin, Option.some_bind]
  refine ⟨{ epsilons := eps
            n_clusters := nc
            giant_sizes := eps.map fun e => (giantSize (build_graph M e) : ℚ) / (n : ℚ)
            fiedler_values := eps.map fun e =>
              if 1 < n ∧ 0 < numEdges (build_graph M e) then fiedler (build_graph M e) else 0
            eps_c := eps.getD (j + 1) 0 },
    by rw [hpc, hj_eq]; rfl, ?_, ?_, hnc, rfl, rfl, ⟨j, ?_, ?_, ?_, rfl⟩⟩
  · rw [heps]
    simp
  · intro i hi
    rw [heps, getD_map_range _ hi]
  · omega
  · intro i hi
    exact hj_max i hi
  · intro i hi
    exact hj_strict i hi

/-- C5 witness: the amended sweep statement at the concrete 1×1 matrix and
step count `2`. -/
theorem C5_witness :
    ((0 : ℕ) < 1 ∧ (2 : ℤ) ≤ 2) ∧
    (∃ r, percolation_curve (fun _ => 0) Mone 2 = some r ∧
      r.epsilons.length = (2 : ℤ).toNat ∧
      (∀ i, i < (2 : ℤ).toNat → r.epsilons.getD i 0 =
        1/100 + (i : ℚ) * (99/100 - 1/100) / (((2 : ℤ).toNat : ℚ) - 1)) ∧
      r.n_clusters = r.epsilons.map (fun e => numComponents (build_graph Mone e)) ∧
      r.giant_sizes = r.epsilons.map (fun e =>
        (giantSize (build_graph Mone e) : ℚ) / ((1 : ℕ) : ℚ)) ∧
      r.fiedler_values = r.epsilons.map (fun e =>
        if 1 < 1 ∧ 0 < numEdges (build_graph Mone e) then (fun _ => (0:ℚ)) (build_graph Mone e) else 0) ∧
      (∃ idx, idx + 1 < (2 : ℤ).toNat ∧
        (∀ i, i < (npDiff (r.n_clusters.map fun c : ℕ => (c : ℚ))).length →
          (npDiff (r.n_clusters.map fun c : ℕ => (c : ℚ))).getD i 0 ≤
            (npDiff (r.n_clusters.map fun c : ℕ => (c : ℚ))).getD idx 0) ∧
        (∀ i, i < idx →
          (npDiff (r.n_clusters.map fun c : ℕ => (c : ℚ))).getD i 0 <
            (npDiff (r.n_clusters.map fun c : ℕ => (c : ℚ))).getD idx 0) ∧
        r.eps_c = r.epsilons.getD (idx + 1) 0)) :=
  ⟨⟨by norm_num, by norm_num⟩,
    C5_percolation_sweep (fun _ => 0) Mone 2 (by norm_num) (by norm_num)⟩

/-- C10: the result of `check_small_world` depends only on its graph
argument (and the abstracted library functions): the `n_nodes` parameter of
the Python signature is never read in the function body, so any two values
of it produce identical results. -/
theorem C10_n_nodes_unused {n : ℕ} (log : ℚ → ℚ) (avgClustering : Mat n → ℚ)
    (W : Mat n) (n1 n2 : ℕ) :
    check_small_world log avgClustering W n1 =
      check_small_world log avgClustering W n2 := rfl

lemma numEdges_W9 : numEdges W9 = 6 := by decide

lemma giantSet_W9 : giantSet W9 = Finset.univ := by decide

lemma subgraphAPL_W9 : subgraphAPL W9 Finset.univ = some 1 := by
  unfold subgraphAPL
  rw [if_pos (by decide)]
  have hsum : (∑ u ∈ (Finset.univ : Finset (Fin 4)), ∑ v ∈ Finset.univ,
      (hopDist W9 Finset.univ u v).getD 0) = 12 := by decide
  rw [hsum]
  norm_num [Finset.card_univ]

/-- C9, evaluated at the failing input: on the complete 4-entity graph with
every edge weight `9/10` the mean weighted degree is `27/10`, but the code
computes `L_random = log(giant) / log(max(2, result.get(avg_degree, 2)))`
where the `result` dict never holds the key `avg_degree`, so the divisor is
always `log 2`.  With the stand-in logarithm `lg9` (`lg9 2 = 1`,
`lg9 4 = 2`, matching `ln 4 / ln 2 = 2` exactly) the function returns
`sigma = (1/1) / (1/2) = 2`, the value produced by the `log 2` divisor —
not the value the claimed `ln(mean degree)` formula would give. -/
theorem C9_check_small_world_eval :
    check_small_world lg9 avgClust9 W9 4 =
      { is_small_world := true, sigma := 2, C_ratio := some 1, L_ratio := some (1/2) } := by
  unfold check_small_world
  rw [if_neg (by rw [numEdges_W9]; norm_num), if_neg (by norm_num), giantSet_W9,
    if_neg (by rw [Finset.card_univ, Fintype.card_fin]; norm_num), subgraphAPL_W9]
  simp only [numEdges_W9, resultGetAvgDegree, avgClust9, lg9, Finset.card_univ,
    Fintype.card_fin]
  norm_num [max_def]

end SIC
